import Mathlib

/-!
# Verification of the `containor` library

Shallow embedding of the `Containor` ordered key-value container
(`src/containor.ts`) and the `ContainorArray` enhanced sequence
(`src/containorArray.ts`).

A `Containor` extends the native `Map`: it is modelled as an association
list `List (K × V)` in insertion order, with the invariant that keys are
distinct (`(keysOf l).Nodup`), which every native `Map` maintains.

Keys in the theorems are instantiated to `Nat`, modelling primitive
(string/number) JavaScript keys: for such keys `Containor.set` always
takes the `super.set` branch (the `addMap` merge branch requires a key
that is neither a string nor a number).

JavaScript values, where the distinction between `null` and `undefined`
matters (the `get` sentinel), are modelled by the inductive type `JSVal`.
-/

namespace Containor

/-- A fragment of the JavaScript value universe, enough to distinguish
`undefined` (the language's missing value), `null` (the sentinel that
`Containor.get` returns for an absent key), and ordinary stored values. -/
inductive JSVal where
  | vundef
  | vnull
  | num (n : Int)
  | str (s : String)
  | bool (b : Bool)
  deriving DecidableEq, Repr

/-- Test for `v == null || v == undefined`: the values treated as "nullish" by the
JavaScript `??` operator. -/
def nullish (v : JSVal) : Bool :=
  v = JSVal.vnull ∨ v = JSVal.vundef

/-- The JavaScript nullish-coalescing operator `v ?? fallback`. -/
def coalesce (v fallback : JSVal) : JSVal :=
  if nullish v then fallback else v

/-- The insertion-ordered key list of a container state. -/
def keysOf {K V : Type} (l : List (K × V)) : List K :=
  l.map Prod.fst

/-- Model of `Map.prototype.set` (and `Containor.set` / `Containor._set` for
primitive keys, src/containor.ts lines 487-510): if the key is already
present its value is updated in place (keeping its position); otherwise
the new entry is appended at the end. -/
def mapSet {K V : Type} [DecidableEq K] (l : List (K × V)) (k : K) (v : V) :
    List (K × V) :=
  match l with
  | [] => [(k, v)]
  | (k', v') :: rest =>
    if k' = k then (k, v) :: rest else (k', v') :: mapSet rest k v

/-- Model of `Containor.set(key, value)` for a primitive (string/number) key and any
value: the dispatch in src/containor.ts line 504 sends every such call to
`super.set`. -/
def setC {K V : Type} [DecidableEq K] (l : List (K × V)) (k : K) (v : V) :
    List (K × V) :=
  mapSet l k v

/-- Model of `Map.prototype.get` (`Containor._get`): the value stored at `k`, if any. -/
def mapGet {K V : Type} [DecidableEq K] (l : List (K × V)) (k : K) : Option V :=
  match l with
  | [] => none
  | (k', v') :: rest => if k' = k then some v' else mapGet rest k

/-- Model of `Containor.get(search)` (src/containor.ts lines 578-583):
`const result = super.get(search); return result ?? null`.  An absent key
yields `undefined` from `super.get`, which `??` turns into `null`. -/
def getC {K : Type} [DecidableEq K] (l : List (K × JSVal)) (k : K) : JSVal :=
  coalesce (match mapGet l k with | none => JSVal.vundef | some v => v) JSVal.vnull

/-- Model of `Map.prototype.has` (the single-key branch of `Containor.has`). -/
def hasKey {K V : Type} [DecidableEq K] (l : List (K × V)) (k : K) : Bool :=
  decide (k ∈ keysOf l)

/-- Model of `Map.prototype.delete`: removes the entry for `k` (a `Map` holds at most
one) and reports whether it was present. -/
def mapDelete {K V : Type} [DecidableEq K] (l : List (K × V)) (k : K) :
    List (K × V) × Bool :=
  match l with
  | [] => ([], false)
  | (k', v') :: rest =>
    if k' = k then (rest, true)
    else
      let r := mapDelete rest k
      ((k', v') :: r.1, r.2)

/-- An argument to `Containor.delete`: a literal key or a predicate
`(value, key, containor, deletedSoFar) -> bool`.  The predicate receives the
live (partially mutated) container, modelled by the current entry list. -/
inductive DeleteArg (K V : Type) where
  | key (k : K)
  | pred (p : V → K → List (K × V) → Nat → Bool)

/-- The multi-literal-key loop of `Containor.delete`
(src/containor.ts lines 550-557): for each key in order, if present,
increment the count and delete it. -/
def deleteLiterals {K V : Type} [DecidableEq K] (l : List (K × V)) (ks : List K) :
    List (K × V) × Nat :=
  match ks with
  | [] => (l, 0)
  | k :: rest =>
    if hasKey l k then
      let r := deleteLiterals (mapDelete l k).1 rest
      (r.1, r.2 + 1)
    else deleteLiterals l rest

/-- The predicate loop of `Containor.delete` (src/containor.ts lines
544-549): iterate the entries in order (deleting the entry just visited
never disturbs the iteration of a JavaScript `Map`, so the visited
sequence is the original entry list); call the predicate with the value,
key, current container state, and the running deleted count; on `true`,
increment the count and delete the key from the state. -/
def deletePredGo {K V : Type} [DecidableEq K]
    (p : V → K → List (K × V) → Nat → Bool) :
    List (K × V) → List (K × V) → Nat → List (K × V) × Nat
  | [], st, n => (st, n)
  | (k, v) :: rest, st, n =>
    if p v k st n then deletePredGo p rest (mapDelete st k).1 (n + 1)
    else deletePredGo p rest st n

/-- Model of `Containor.delete` with a single predicate argument. -/
def deleteByPred {K V : Type} [DecidableEq K]
    (p : V → K → List (K × V) → Nat → Bool) (l : List (K × V)) :
    List (K × V) × Nat :=
  deletePredGo p l l 0

/-- Model of `Containor.delete(...args)` (src/containor.ts lines 529-560).
Returns the new container state together with the returned value:
* exactly one non-function argument: `return super.delete(key)` — a Boolean;
* first argument a function: predicate pass, returns the count;
* otherwise: literal-key loop, returns the count.  (In the literal loop a
  function object in a non-first position is looked up with `has`, which is
  `false` for keys of primitive type, so only `.key` arguments matter.) -/
def deleteC {K V : Type} [DecidableEq K] (l : List (K × V))
    (args : List (DeleteArg K V)) : List (K × V) × (Bool ⊕ Nat) :=
  match args with
  | [DeleteArg.key k] =>
    let r := mapDelete l k
    (r.1, Sum.inl r.2)
  | DeleteArg.pred p :: _ =>
    let r := deleteByPred p l
    (r.1, Sum.inr r.2)
  | _ =>
    let ks := args.filterMap fun a =>
      match a with
      | DeleteArg.key k => some k
      | DeleteArg.pred _ => none
    let r := deleteLiterals l ks
    (r.1, Sum.inr r.2)

/-- A sequence of `set(key, value)` calls applied in order. -/
def applySets {K V : Type} [DecidableEq K] (l : List (K × V))
    (ops : List (K × V)) : List (K × V) :=
  ops.foldl (fun acc kv => setC acc kv.1 kv.2) l

/-- Modelled from the spec's words, for comparison with the code: "keys in
the order first inserted" — the subsequence of the key sequence keeping
each key the first time it appears and is not among the keys already seen.
It depends only on the keys, not on the values set. -/
def firstInserted {K : Type} [DecidableEq K] : List K → List K → List K
  | [], _ => []
  | k :: rest, seen =>
    if k ∈ seen then firstInserted rest seen
    else k :: firstInserted rest (seen ++ [k])

/-- Model of `super.clear()` followed by `super.set` for each entry in order — the
rebuild loop used by `sort` and `splice` — and equally the effect of
`Containor.from` on an array of key-value pairs (each pair goes through
`set`).  Duplicate keys collapse: the first occurrence fixes the position,
the last occurrence fixes the value. -/
def fromEntries {K V : Type} [DecidableEq K] (entries : List (K × V)) :
    List (K × V) :=
  entries.foldl (fun acc e => mapSet acc e.1 e.2) []

/-- Result of `Containor.first` / `Containor.last`: a single
`{key, value}` pair, `undefined` (the empty indicator), or a new
containor. -/
inductive PairResult (K V : Type) where
  | pair (k : K) (v : V)
  | empty
  | containor (l : List (K × V))
  deriving DecidableEq

/-- The effective amount used by `first`/`last`
(src/containor.ts lines 76-77 and 127-128): a missing or non-positive
argument becomes 1, then the amount is capped at the size. -/
def effAmount (len : Nat) (amount? : Option Int) : Int :=
  min (len : Int)
    (match amount? with
     | none => 1
     | some a => if a ≤ 0 then 1 else a)

/-- Model of `Containor.first(amount?)` (src/containor.ts lines 74-82). -/
def firstC {K V : Type} [DecidableEq K] (l : List (K × V))
    (amount? : Option Int) : PairResult K V :=
  let a := effAmount l.length amount?
  let selected := l.take a.toNat
  if a ≤ 1 then
    if a = 1 then
      match selected with
      | (k, v) :: _ => PairResult.pair k v
      | [] => PairResult.empty  -- unreachable: a = 1 forces a nonempty take
    else PairResult.empty
  else PairResult.containor (fromEntries selected)

/-- Model of `Containor.last(amount?)` (src/containor.ts lines 125-133).
`entries.slice(-amount)` takes the last `amount` elements; for
`amount = 0` (possible only on an empty container) `slice(-0)` is
`slice(0)`, the whole (empty) list. -/
def lastC {K V : Type} [DecidableEq K] (l : List (K × V))
    (amount? : Option Int) : PairResult K V :=
  let a := effAmount l.length amount?
  let selected := if a = 0 then l else l.drop (l.length - a.toNat)
  if a ≤ 1 then
    if a = 1 then
      match selected with
      | (k, v) :: _ => PairResult.pair k v
      | [] => PairResult.empty  -- unreachable: a = 1 forces a nonempty slice
    else PairResult.empty
  else PairResult.containor (fromEntries selected)

/-- The `start` clamping of `Containor.splice`
(src/containor.ts lines 401-404): negative values count from the end, then
the result is clamped into `[0, size]`. -/
def clampStart (size : Nat) (start : Int) : Nat :=
  let s : Int := if start < 0 then (size : Int) + start else start
  let s : Int := if s < 0 then 0 else s
  let s : Int := if s > (size : Int) then (size : Int) else s
  s.toNat

/-- The `deleteCount` normalization of `Containor.splice`: a missing count,
or one larger than `size - start`, becomes `size - start`
(src/containor.ts lines 405-406); a negative count is clamped to 0 by
`Array.prototype.splice` itself. -/
def clampDelete (size s : Nat) (dc : Option Int) : Nat :=
  match dc with
  | none => size - s
  | some d =>
    if d > (size : Int) - (s : Int) then size - s
    else if d < 0 then 0
    else d.toNat

/-- Model of `Containor.splice(start, deleteCount, ...items)`
(src/containor.ts lines 399-412).  The entry list is spliced like an
array, the receiver is rebuilt from the spliced list via
`clear` + `set` (`fromEntries`), and the removed entries are returned as a
new containor built by `Containor.from` (again `fromEntries`).
Result: `(new receiver state, returned containor of removed entries)`. -/
def spliceC {K V : Type} [DecidableEq K] (l : List (K × V)) (start : Int)
    (dc : Option Int) (items : List (K × V)) :
    List (K × V) × List (K × V) :=
  let s := clampStart l.length start
  let n := clampDelete l.length s dc
  let removed := (l.drop s).take n
  let rebuilt := l.take s ++ items ++ l.drop (s + n)
  (fromEntries rebuilt, fromEntries removed)

/-- Model of `Containor.sort(func)` (src/containor.ts lines 357-368): the entry
list is sorted by the comparator applied as
`func(a.value, b.value, a.key, b.key)`, then the map is rebuilt by
`clear` + `set`.  ECMAScript requires `Array.prototype.sort` to be stable,
and for a consistent comparator every stable sort produces the same list,
so a stable insertion sort (`a` precedes `b` when `cmp ≤ 0`) is a faithful
model on the comparators for which ECMAScript pins the behaviour down. -/
def sortRel {K V : Type} (cmp : V → V → K → K → Int) (a b : K × V) : Prop :=
  cmp a.2 b.2 a.1 b.1 ≤ 0

instance {K V : Type} (cmp : V → V → K → K → Int) :
    DecidableRel (sortRel cmp) := fun a b =>
  inferInstanceAs (Decidable (cmp a.2 b.2 a.1 b.1 ≤ 0))

def sortC {K V : Type} [DecidableEq K] (cmp : V → V → K → K → Int)
    (l : List (K × V)) : List (K × V) :=
  fromEntries (List.insertionSort (sortRel cmp) l)

/-- Result of `Containor.has(...keys)`: a single Boolean, or a
ContainorArray of per-key Booleans carrying the `hasAll` / `hasAny`
flags. -/
inductive HasResult where
  | single (b : Bool)
  | multiple (results : List Bool) (hasAll hasAny : Bool)
  deriving DecidableEq, Repr

/-- Model of `Containor.has(...keys)` (src/containor.ts lines 604-613): no
argument returns `false`; one argument defers to `super.has`; several
arguments produce the Boolean list with `hasAll = results.every(Boolean)`
and `hasAny = results.some(Boolean)`. -/
def hasC {K V : Type} [DecidableEq K] (l : List (K × V)) (ks : List K) :
    HasResult :=
  match ks with
  | [] => HasResult.single false
  | [k] => HasResult.single (hasKey l k)
  | _ =>
    let results := ks.map (hasKey l)
    HasResult.multiple results (results.all id) (results.any id)

/-- Model of `Containor.filter(func)` (src/containor.ts lines 252-259): iterate the
receiver's entries, `set` the matching ones into a fresh containor.  The
method body never writes to `this`, so the receiver state after the call
(first component) is the input state. -/
def filterC {K V : Type} [DecidableEq K] (p : V → K → Bool)
    (l : List (K × V)) : List (K × V) × List (K × V) :=
  (l, l.foldl (fun acc e => if p e.2 e.1 then mapSet acc e.1 e.2 else acc) [])

/-- Model of `Containor.partition(func)` (src/containor.ts lines 270-281): iterate
the receiver's entries, `set` each into the first or second fresh
containor according to the predicate.  The receiver is never written. -/
def partitionC {K V : Type} [DecidableEq K] (p : V → K → Bool)
    (l : List (K × V)) :
    List (K × V) × (List (K × V) × List (K × V)) :=
  (l,
    l.foldl
      (fun acc e =>
        if p e.2 e.1 then (mapSet acc.1 e.1 e.2, acc.2)
        else (acc.1, mapSet acc.2 e.1 e.2))
      ([], []))

/-- Model of the `Array.prototype.slice(start, end?)` index normalization: a negative
index counts from the end and is clamped below by 0; a nonnegative index is
clamped above by the length; a missing end means the length. -/
def jsSliceBounds (len : Nat) (start : Int) (stop? : Option Int) : Nat × Nat :=
  let norm : Int → Nat := fun i =>
    if i < 0 then (max ((len : Int) + i) 0).toNat else (min i (len : Int)).toNat
  (norm start, match stop? with | none => len | some e => norm e)

/-- Model of `Array.prototype.slice` on a list: the elements with positions in
`[start', end')` after normalization. -/
def jsSlice {T : Type} (l : List T) (start : Int) (stop? : Option Int) :
    List T :=
  let b := jsSliceBounds l.length start stop?
  (l.take b.2).drop b.1

/-- Model of `Containor.slice(start, end?)` (src/containor.ts lines 381-384): a new
containor built by `Containor.from` over the sliced entry list; the
receiver is never written. -/
def sliceC {K V : Type} [DecidableEq K] (l : List (K × V)) (start : Int)
    (stop? : Option Int) : List (K × V) × List (K × V) :=
  (l, fromEntries (jsSlice l start stop?))

end Containor

namespace ContainorArray

/-- Model of `Array.from(new Set(xs))`: duplicates removed, keeping the first
occurrence of each element (a JavaScript `Set` preserves insertion
order).  The second argument accumulates the elements already seen. -/
def dedupFirst {T : Type} [DecidableEq T] : List T → List T → List T
  | [], _ => []
  | x :: rest, seen =>
    if x ∈ seen then dedupFirst rest seen
    else x :: dedupFirst rest (x :: seen)

/-- Model of `ContainorArray.deleteAt(...removeArr)` (src/containorArray.ts lines
59-70).  No indices: return the array unchanged.  Otherwise the duplicate
indices are collapsed, every unique index is bounds-checked *before* any
mutation (so on error the array is untouched — modelled by `Except.error`
carrying the first offending index), and on success the elements at the
given positions are removed. -/
def deleteAt {T : Type} [DecidableEq T] (l : List T) (removeArr : List Int) :
    Except Int (List T) :=
  if removeArr.isEmpty then Except.ok l
  else
    let unique := dedupFirst removeArr []
    match unique.find? (fun i => decide (i < 0) || decide ((l.length : Int) ≤ i)) with
    | some bad => Except.error bad
    | none =>
      Except.ok
        ((l.enum.filter (fun pr => !decide ((pr.1 : Int) ∈ unique))).map Prod.snd)

/-- The body of `ContainorArray.removeDuplicates`
(src/containorArray.ts lines 86-91): walk `arrayDefault`, pushing an item
when it is in the ignore set or not yet seen, adding unseen items to
`seen`. -/
def removeDupGo {T : Type} [DecidableEq T] (ignore : List T) :
    List T → List T → List T
  | [], _ => []
  | x :: rest, seen =>
    if x ∈ ignore ∨ ¬ x ∈ seen then
      x :: removeDupGo ignore rest (if x ∈ seen then seen else seen ++ [x])
    else removeDupGo ignore rest seen

/-- Model of `ContainorArray.removeDuplicates(arrayDefault = [], ...ignore)`
(src/containorArray.ts lines 81-93): if the receiver has at most one
element it is returned unchanged; otherwise the receiver is cleared
(`this.length = 0`) and rebuilt from `arrayDefault` — whose default value
in the code is the empty array, not the receiver. -/
def removeDuplicates {T : Type} [DecidableEq T]
    (self arrayDefault ignore : List T) : List T :=
  if self.length ≤ 1 then self
  else removeDupGo ignore arrayDefault []

end ContainorArray

namespace Containor

theorem keysOf_nil {K V : Type} : keysOf ([] : List (K × V)) = [] := rfl

theorem keysOf_cons {K V : Type} (e : K × V) (l : List (K × V)) :
    keysOf (e :: l) = e.1 :: keysOf l := rfl

theorem keysOf_append {K V : Type} (l m : List (K × V)) :
    keysOf (l ++ m) = keysOf l ++ keysOf m := by
  simp [keysOf]

variable {K V : Type} [DecidableEq K]

theorem keysOf_mapSet (l : List (K × V)) (k : K) (v : V) :
    keysOf (mapSet l k v) =
      if k ∈ keysOf l then keysOf l else keysOf l ++ [k] := by
  induction l with
  | nil => simp [mapSet, keysOf]
  | cons e rest ih =>
    obtain ⟨k', v'⟩ := e
    by_cases h : k' = k
    · subst h
      simp [mapSet, keysOf_cons]
    · simp only [mapSet, if_neg h, keysOf_cons, ih]
      by_cases hm : k ∈ keysOf rest
      · simp [hm, Ne.symm h]
      · simp [hm, Ne.symm h]

theorem mapSet_of_not_mem {l : List (K × V)} {k : K} (v : V)
    (h : k ∉ keysOf l) : mapSet l k v = l ++ [(k, v)] := by
  induction l with
  | nil => simp [mapSet]
  | cons e rest ih =>
    obtain ⟨k', v'⟩ := e
    simp only [keysOf_cons, List.mem_cons, not_or] at h
    simp [mapSet, Ne.symm h.1, ih h.2]

theorem mapGet_mapSet_self (l : List (K × V)) (k : K) (v : V) :
    mapGet (mapSet l k v) k = some v := by
  induction l with
  | nil => simp [mapSet, mapGet]
  | cons e rest ih =>
    obtain ⟨k', v'⟩ := e
    by_cases h : k' = k
    · subst h; simp [mapSet, mapGet]
    · simp [mapSet, mapGet, h, ih]

theorem mapGet_eq_none {l : List (K × V)} {k : K} (h : k ∉ keysOf l) :
    mapGet l k = none := by
  induction l with
  | nil => rfl
  | cons e rest ih =>
    obtain ⟨k', v'⟩ := e
    simp only [keysOf_cons, List.mem_cons, not_or] at h
    simp [mapGet, Ne.symm h.1, ih h.2]

theorem hasKey_eq_false {l : List (K × V)} {k : K} (h : k ∉ keysOf l) :
    hasKey l k = false := by
  simp [hasKey, h]

theorem hasKey_mapSet_self (l : List (K × V)) (k : K) (v : V) :
    hasKey (mapSet l k v) k = true := by
  simp only [hasKey, decide_eq_true_eq, keysOf_mapSet]
  by_cases h : k ∈ keysOf l <;> simp [h]

end Containor

namespace Containor

theorem keysOf_pair_cons {K V : Type} (k : K) (v : V) (l : List (K × V)) :
    keysOf ((k, v) :: l) = k :: keysOf l := rfl

variable {K V : Type} [DecidableEq K]

theorem foldl_mapSet_eq_append :
    ∀ (l acc : List (K × V)), (keysOf (acc ++ l)).Nodup →
      l.foldl (fun acc e => mapSet acc e.1 e.2) acc = acc ++ l
  | [], acc, _ => by simp
  | (k, v) :: rest, acc, h => by
    have hkeys : keysOf (acc ++ (k, v) :: rest) =
        keysOf acc ++ k :: keysOf rest := by
      rw [keysOf_append, keysOf_pair_cons]
    rw [hkeys] at h
    have hk : k ∉ keysOf acc := by
      intro hmem
      exact (List.disjoint_of_nodup_append h hmem) (List.mem_cons_self _ _)
    have step : mapSet acc k v = acc ++ [(k, v)] := mapSet_of_not_mem v hk
    have h' : (keysOf ((acc ++ [(k, v)]) ++ rest)).Nodup := by
      have heq : (acc ++ [(k, v)]) ++ rest = acc ++ (k, v) :: rest := by simp
      rw [heq, hkeys]; exact h
    calc ((k, v) :: rest).foldl (fun acc e => mapSet acc e.1 e.2) acc
        = rest.foldl (fun acc e => mapSet acc e.1 e.2) (acc ++ [(k, v)]) := by
          simp [List.foldl_cons, step]
      _ = (acc ++ [(k, v)]) ++ rest := foldl_mapSet_eq_append rest _ h'
      _ = acc ++ (k, v) :: rest := by simp

theorem fromEntries_eq_self {l : List (K × V)} (h : (keysOf l).Nodup) :
    fromEntries l = l := by
  have := foldl_mapSet_eq_append l [] (by simpa using h)
  simpa [fromEntries] using this

theorem mapDelete_snd (l : List (K × V)) (k : K) :
    (mapDelete l k).2 = hasKey l k := by
  induction l with
  | nil => simp [mapDelete, hasKey, keysOf]
  | cons e rest ih =>
    obtain ⟨k', v'⟩ := e
    by_cases h : k' = k
    · subst h; simp [mapDelete, hasKey, keysOf_pair_cons]
    · simp [mapDelete, h, ih, hasKey, keysOf_pair_cons, Ne.symm h]

theorem mapDelete_of_not_mem {l : List (K × V)} {k : K}
    (h : k ∉ keysOf l) : mapDelete l k = (l, false) := by
  induction l with
  | nil => rfl
  | cons e rest ih =>
    obtain ⟨k', v'⟩ := e
    rw [keysOf_pair_cons] at h
    simp only [List.mem_cons, not_or] at h
    simp [mapDelete, Ne.symm h.1, ih h.2]

theorem mapDelete_fst_of_nodup {l : List (K × V)} (k : K)
    (h : (keysOf l).Nodup) :
    (mapDelete l k).1 = l.filter (fun e => !decide (e.1 = k)) := by
  induction l with
  | nil => rfl
  | cons e rest ih =>
    obtain ⟨k', v'⟩ := e
    rw [keysOf_pair_cons] at h
    obtain ⟨hnotin, hnd⟩ := List.nodup_cons.mp h
    by_cases hk : k' = k
    · subst hk
      have hall : ∀ e ∈ rest, (fun e : K × V => !decide (e.1 = k')) e = true := by
        intro e he
        simp only [Bool.not_eq_true', decide_eq_false_iff_not]
        intro hfst
        exact hnotin (hfst ▸ List.mem_map_of_mem Prod.fst he)
      simp [mapDelete, List.filter_cons, (List.filter_eq_self).mpr hall]
    · simp [mapDelete, hk, List.filter_cons, Ne.symm hk, ih hnd]

theorem mem_keysOf_filter {K V : Type} {l : List (K × V)} {p : K × V → Bool} {a : K} :
    a ∈ keysOf (l.filter p) ↔ ∃ v, (a, v) ∈ l ∧ p (a, v) = true := by
  simp only [keysOf, List.mem_map, List.mem_filter]
  constructor
  · rintro ⟨⟨b, v⟩, ⟨hm, hp⟩, rfl⟩
    exact ⟨v, hm, hp⟩
  · rintro ⟨v, hm, hp⟩
    exact ⟨(a, v), ⟨hm, hp⟩, rfl⟩

theorem keysOf_filter_sublist {K V : Type} (l : List (K × V)) (p : K × V → Bool) :
    List.Sublist (keysOf (l.filter p)) (keysOf l) :=
  List.Sublist.map Prod.fst (List.filter_sublist l)

theorem nodup_keysOf_filter {l : List (K × V)} (p : K × V → Bool)
    (h : (keysOf l).Nodup) : (keysOf (l.filter p)).Nodup :=
  h.sublist (keysOf_filter_sublist l p)

theorem length_mapDelete_of_mem {l : List (K × V)} {k : K}
    (hnd : (keysOf l).Nodup) (hk : k ∈ keysOf l) :
    (mapDelete l k).1.length + 1 = l.length := by
  induction l with
  | nil => simp [keysOf] at hk
  | cons e rest ih =>
    obtain ⟨k', v'⟩ := e
    rw [keysOf_pair_cons] at hnd hk
    obtain ⟨_, hnd'⟩ := List.nodup_cons.mp hnd
    by_cases h : k' = k
    · subst h; simp [mapDelete]
    · rcases List.mem_cons.mp hk with hk' | hk'
      · exact absurd hk'.symm h
      · simp [mapDelete, h, ih hnd' hk']

end Containor

namespace Containor

variable {K V : Type} [DecidableEq K]

theorem deleteLiterals_spec :
    ∀ (ks : List K) (l : List (K × V)), (keysOf l).Nodup →
      (deleteLiterals l ks).1 = l.filter (fun e => !decide (e.1 ∈ ks)) ∧
      (deleteLiterals l ks).2 + (deleteLiterals l ks).1.length = l.length
  | [], l, _ => by simp [deleteLiterals]
  | k :: rest, l, hnd => by
    by_cases hk : k ∈ keysOf l
    · have hhk : hasKey l k = true := by simp [hasKey, hk]
      have hfst := mapDelete_fst_of_nodup (l := l) k hnd
      have hnd' : (keysOf ((mapDelete l k).1)).Nodup := by
        rw [hfst]; exact nodup_keysOf_filter _ hnd
      obtain ⟨ih1, ih2⟩ := deleteLiterals_spec rest (mapDelete l k).1 hnd'
      have hlen := length_mapDelete_of_mem hnd hk
      refine ⟨?_, ?_⟩
      · show (deleteLiterals l (k :: rest)).1 = _
        rw [deleteLiterals, if_pos hhk]
        dsimp only
        rw [ih1, hfst, List.filter_filter]
        apply List.filter_congr
        intro e _
        by_cases h1 : e.1 = k <;> by_cases h2 : e.1 ∈ rest <;>
          simp [h1, h2, List.mem_cons]
      · show (deleteLiterals l (k :: rest)).2 + _ = _
        rw [deleteLiterals, if_pos hhk]
        dsimp only
        omega
    · have hhk : hasKey l k = false := hasKey_eq_false hk
      obtain ⟨ih1, ih2⟩ := deleteLiterals_spec rest l hnd
      refine ⟨?_, ?_⟩
      · rw [deleteLiterals, if_neg (by simp [hhk]), ih1]
        apply List.filter_congr
        intro e he
        have hne : e.1 ≠ k := by
          intro h; exact hk (h ▸ List.mem_map_of_mem Prod.fst he)
        simp [List.mem_cons, hne]
      · rw [deleteLiterals, if_neg (by simp [hhk])]
        exact ih2

theorem deletePredGo_spec (p : V → K → List (K × V) → Nat → Bool) :
    ∀ (visit st : List (K × V)) (n : Nat),
      (keysOf st).Nodup → (keysOf visit).Nodup →
      (∀ e ∈ visit, e.1 ∈ keysOf st) →
      List.Sublist (deletePredGo p visit st n).1 st ∧
      (deletePredGo p visit st n).2 + (deletePredGo p visit st n).1.length =
        n + st.length
  | [], st, n, _, _, _ => by simp [deletePredGo]
  | (k, v) :: rest, st, n, hst, hvis, hmem => by
    rw [keysOf_pair_cons] at hvis
    obtain ⟨hknotin, hvis'⟩ := List.nodup_cons.mp hvis
    have hkst : k ∈ keysOf st := hmem (k, v) (List.mem_cons_self _ _)
    by_cases hp : p v k st n
    · have hfst := mapDelete_fst_of_nodup (l := st) k hst
      have hst' : (keysOf ((mapDelete st k).1)).Nodup := by
        rw [hfst]; exact nodup_keysOf_filter _ hst
      have hmem' : ∀ e ∈ rest, e.1 ∈ keysOf ((mapDelete st k).1) := by
        intro e he
        rw [hfst]
        have h1 : e.1 ∈ keysOf st := hmem e (List.mem_cons_of_mem _ he)
        have h2 : e.1 ≠ k := fun hkeq =>
          hknotin (hkeq ▸ List.mem_map_of_mem Prod.fst he)
        rcases List.mem_map.mp h1 with ⟨e', he', heq⟩
        apply mem_keysOf_filter.mpr
        refine ⟨e'.2, ?_, ?_⟩
        · have : e' = (e.1, e'.2) := by
            rw [← heq]
          rw [← this]; exact he'
        · simp [h2]
      obtain ⟨ihsub, ihlen⟩ :=
        deletePredGo_spec p rest (mapDelete st k).1 (n + 1) hst' hvis' hmem'
      have hlen := length_mapDelete_of_mem hst hkst
      have hsub : List.Sublist ((mapDelete st k).1) st := by
        rw [hfst]; exact List.filter_sublist st
      refine ⟨?_, ?_⟩
      · show List.Sublist (deletePredGo p ((k, v) :: rest) st n).1 st
        rw [deletePredGo, if_pos hp]
        exact ihsub.trans hsub
      · show (deletePredGo p ((k, v) :: rest) st n).2 + _ = _
        rw [deletePredGo, if_pos hp]
        omega
    · have hmem'' : ∀ e ∈ rest, e.1 ∈ keysOf st := fun e he =>
        hmem e (List.mem_cons_of_mem _ he)
      obtain ⟨ihsub, ihlen⟩ := deletePredGo_spec p rest st n hst hvis' hmem''
      refine ⟨?_, ?_⟩
      · rw [deletePredGo, if_neg hp]
        exact ihsub
      · rw [deletePredGo, if_neg hp]
        exact ihlen

theorem deleteByPred_spec (p : V → K → List (K × V) → Nat → Bool)
    (l : List (K × V)) (hnd : (keysOf l).Nodup) :
    List.Sublist (deleteByPred p l).1 l ∧
    (deleteByPred p l).2 + (deleteByPred p l).1.length = l.length := by
  have := deletePredGo_spec p l l 0 hnd hnd (fun e he =>
    List.mem_map_of_mem Prod.fst he)
  simpa [deleteByPred] using this

end Containor

namespace Containor

variable {K V : Type} [DecidableEq K]

theorem keysOf_applySets :
    ∀ (ops : List (K × V)) (l : List (K × V)),
      keysOf (applySets l ops) =
        keysOf l ++ firstInserted (keysOf ops) (keysOf l)
  | [], l => by simp [applySets, firstInserted, keysOf]
  | (k, v) :: ops, l => by
    have hstep : applySets l ((k, v) :: ops) = applySets (mapSet l k v) ops := by
      simp [applySets, setC]
    rw [hstep, keysOf_applySets ops (mapSet l k v), keysOf_mapSet,
      keysOf_pair_cons]
    by_cases h : k ∈ keysOf l
    · rw [if_pos h, firstInserted, if_pos h]
    · rw [if_neg h, firstInserted, if_neg h, List.append_assoc,
        List.singleton_append]

/-- C2: insertion-order invariant.  Starting from an empty container, a
sequence of `set` operations leaves the keys in first-insertion order
(`firstInserted`, which depends only on the key sequence, so value updates
cannot affect it); and a single `set` keeps the position of an existing
key and appends a new key at the end. -/
theorem set_insertion_order (ops l : List (K × V)) (k : K) (v : V) :
    keysOf (applySets [] ops) = firstInserted (keysOf ops) [] ∧
    keysOf (setC l k v) =
      (if k ∈ keysOf l then keysOf l else keysOf l ++ [k]) := by
  constructor
  · simpa [keysOf] using keysOf_applySets ops []
  · exact keysOf_mapSet l k v

/-- C1 counterexample: `delete` with a single literal absent key returns
the Boolean `false` (the `super.delete` result), not the removal count
`0` that the claim promises. -/
theorem delete_single_key_returns_boolean :
    (deleteC [((0 : Nat), (0 : Nat))] [DeleteArg.key 1]).2 ≠ Sum.inr 0 ∧
    (deleteC [((0 : Nat), (0 : Nat))] [DeleteArg.key 1]).2 = Sum.inl false := by
  decide

/-- C1 (amended): a single literal key returns a Boolean — `true` with the
length reduced by one if the key was present, `false` with the container
unchanged otherwise; any other number of literal keys removes each present
key and returns the count removed; a single predicate removes the entries
the predicate selects (walking the entries in order with the running
deleted count) and returns the total removed. -/
theorem delete_contract (l : List (K × V)) (k : K) (ks : List K)
    (p : V → K → List (K × V) → Nat → Bool)
    (hnd : (keysOf l).Nodup) :
    (k ∈ keysOf l →
      (deleteC l [DeleteArg.key k]).2 = Sum.inl true ∧
      (deleteC l [DeleteArg.key k]).1.length + 1 = l.length) ∧
    (k ∉ keysOf l → deleteC l [DeleteArg.key k] = (l, Sum.inl false)) ∧
    (ks.length ≠ 1 →
      deleteC l (ks.map DeleteArg.key) =
        (l.filter (fun e => !decide (e.1 ∈ ks)),
         Sum.inr
           (l.length - (l.filter (fun e => !decide (e.1 ∈ ks))).length))) ∧
    ((deleteC l [DeleteArg.pred p]).2 =
        Sum.inr (l.length - (deleteC l [DeleteArg.pred p]).1.length) ∧
      List.Sublist (deleteC l [DeleteArg.pred p]).1 l) := by
  have hkey : ∀ k' : K, deleteC l [DeleteArg.key k'] =
      ((mapDelete l k').1, Sum.inl (mapDelete l k').2) := fun _ => rfl
  refine ⟨?_, ?_, ?_, ?_⟩
  · intro hk
    rw [hkey]
    refine ⟨?_, length_mapDelete_of_mem hnd hk⟩
    rw [mapDelete_snd]
    simp [hasKey, hk]
  · intro hk
    rw [hkey, mapDelete_of_not_mem hk]
  · intro hlen
    have hfm : ∀ ks' : List K,
        (ks'.map (DeleteArg.key (V := V))).filterMap
          (fun a => match a with
            | DeleteArg.key k => some k
            | DeleteArg.pred _ => none) = ks' := by
      intro ks'
      induction ks' with
      | nil => rfl
      | cons k' rest ih => simpa [List.filterMap_cons] using ih
    have harg : deleteC l (ks.map DeleteArg.key) =
        ((deleteLiterals l ks).1, Sum.inr (deleteLiterals l ks).2) := by
      match ks, hlen with
      | [], _ => rfl
      | k1 :: k2 :: rest, _ =>
        show deleteC l (DeleteArg.key k1 :: DeleteArg.key k2 :: _) = _
        simp only [deleteC]
        rw [show DeleteArg.key k1 :: DeleteArg.key k2 ::
              List.map (DeleteArg.key (V := V)) rest =
            List.map DeleteArg.key (k1 :: k2 :: rest) from rfl,
          hfm (k1 :: k2 :: rest)]
    obtain ⟨h1, h2⟩ := deleteLiterals_spec ks l hnd
    rw [harg, h1]
    have : (deleteLiterals l ks).2 =
        l.length - (l.filter (fun e => !decide (e.1 ∈ ks))).length := by
      rw [h1] at h2
      omega
    rw [this]
  · have harg : deleteC l [DeleteArg.pred p] =
        ((deleteByPred p l).1, Sum.inr (deleteByPred p l).2) := rfl
    obtain ⟨hsub, hcount⟩ := deleteByPred_spec p l hnd
    rw [harg]
    exact ⟨by simp; omega, hsub⟩

end Containor

namespace Containor

variable {K V : Type} [DecidableEq K]

/-- C1 witness: applying the contract at a concrete container and key. -/
theorem delete_contract_witness :
    (deleteC [((0 : Nat), (1 : Nat)), (1, 2)] [DeleteArg.key 0]).2 =
        Sum.inl true ∧
    (deleteC [((0 : Nat), (1 : Nat)), (1, 2)] [DeleteArg.key 0]).1.length + 1 =
      [((0 : Nat), (1 : Nat)), (1, 2)].length :=
  (delete_contract [((0 : Nat), (1 : Nat)), (1, 2)] 0 [0, 1]
    (fun _ _ _ _ => false) (by decide)).1 (by decide)

/-- C3 counterexample: storing the value `null` makes `get` return exactly
the absent-key sentinel `null`, so a stored value is conflated with the
absent-key indicator although the key is present. -/
theorem get_conflates_stored_null :
    hasKey (setC ([] : List (Nat × JSVal)) 0 JSVal.vnull) 0 = true ∧
    getC (setC ([] : List (Nat × JSVal)) 0 JSVal.vnull) 0 = JSVal.vnull ∧
    getC ([] : List (Nat × JSVal)) 0 = JSVal.vnull := by
  decide

/-- C3 (amended): for an absent key, `has` is `false` and `get` returns the
sentinel `null` (never `undefined`, the language's missing value); after
`set(k, v)`, `has` is `true`, and `get` returns `v` provided `v` is neither
`null` nor `undefined` — a stored `null` (or `undefined`) is returned as
`null`, indistinguishable from absence. -/
theorem get_set_contract (l : List (Nat × JSVal)) (k : Nat) (v : JSVal)
    (habs : k ∉ keysOf l) (h1 : v ≠ JSVal.vnull) (h2 : v ≠ JSVal.vundef) :
    hasKey l k = false ∧
    getC l k = JSVal.vnull ∧
    hasKey (setC l k v) k = true ∧
    getC (setC l k v) k = v ∧
    hasKey (setC l k JSVal.vnull) k = true ∧
    getC (setC l k JSVal.vnull) k = JSVal.vnull ∧
    JSVal.vnull ≠ JSVal.vundef := by
  refine ⟨hasKey_eq_false habs, ?_, hasKey_mapSet_self l k v, ?_,
    hasKey_mapSet_self l k JSVal.vnull, ?_, by decide⟩
  · rw [getC, mapGet_eq_none habs]
    rfl
  · rw [getC, setC, mapGet_mapSet_self]
    simp [coalesce, nullish, h1, h2]
  · rw [getC, setC, mapGet_mapSet_self]
    rfl

/-- C3 witness. -/
theorem get_set_contract_witness :
    hasKey [((1 : Nat), JSVal.num 5)] 0 = false ∧
    getC (setC [((1 : Nat), JSVal.num 5)] 0 (JSVal.num 7)) 0 = JSVal.num 7 := by
  have h := get_set_contract [((1 : Nat), JSVal.num 5)] 0 (JSVal.num 7)
    (by decide) (by decide) (by decide)
  exact ⟨h.1, h.2.2.2.1⟩

/-- C9: `has()` with no arguments returns the Boolean `false`; it neither
throws nor builds the multi-key Boolean sequence. -/
theorem has_no_arguments (l : List (K × V)) :
    hasC l [] = HasResult.single false := rfl

end Containor

namespace ContainorArray

/-- C4: the failing input.  `removeDuplicates()` called with no arguments —
`arrayDefault` defaults to `[]` in the code — clears `[1,2,2,3,1]` to `[]`
instead of the documented `[1,2,3]`; rebuilding from the receiver itself
(what the method's own JSDoc and example say the default is) produces the
documented result. -/
theorem removeDuplicates_default_clears :
    removeDuplicates [1, 2, 2, 3, 1] [] [] = ([] : List Nat) ∧
    removeDuplicates [1, 2, 2, 3, 1] [1, 2, 2, 3, 1] [] = [1, 2, 3] := by
  decide

end ContainorArray

namespace Containor

variable {K V : Type} [DecidableEq K]

theorem nodup_keysOf_take {l : List (K × V)} (m : Nat)
    (h : (keysOf l).Nodup) : (keysOf (l.take m)).Nodup :=
  h.sublist (List.Sublist.map Prod.fst (List.take_sublist m l))

theorem nodup_keysOf_drop {l : List (K × V)} (m : Nat)
    (h : (keysOf l).Nodup) : (keysOf (l.drop m)).Nodup :=
  h.sublist (List.Sublist.map Prod.fst (List.drop_sublist m l))

/-- C5 counterexample: on a one-entry container, `first(2)` and `last(2)`
return the single `{key, value}` pair, not a new container holding the
`min(2, size) = 1` first/last entries. -/
theorem first_last_singleton_not_containor :
    firstC [((0 : Nat), (7 : Nat))] (some 2) = PairResult.pair 0 7 ∧
    firstC [((0 : Nat), (7 : Nat))] (some 2) ≠ PairResult.containor [(0, 7)] ∧
    lastC [((0 : Nat), (7 : Nat))] (some 2) = PairResult.pair 0 7 ∧
    lastC [((0 : Nat), (7 : Nat))] (some 2) ≠ PairResult.containor [(0, 7)] := by
  decide

/-- C5 (amended): with `n ≤ 1` or omitted, `first`/`last` return the single
first/last pair, or the empty indicator on an empty container; with
`n > 1` they return a new container of the first/last `min(n, size)`
entries in original relative order provided the container has more than
one entry — on a container with at most one entry the pair/empty form is
returned instead. -/
theorem first_last_contract (l : List (K × V)) (k : K) (v : V) (n : Int)
    (hn : 1 < n) (hl : 1 < l.length) (hnd : (keysOf l).Nodup) :
    firstC ((k, v) :: l) none = PairResult.pair k v ∧
    lastC (l ++ [(k, v)]) none = PairResult.pair k v ∧
    firstC ([] : List (K × V)) (some n) = PairResult.empty ∧
    lastC ([] : List (K × V)) (some n) = PairResult.empty ∧
    firstC ([] : List (K × V)) none = PairResult.empty ∧
    lastC ([] : List (K × V)) none = PairResult.empty ∧
    firstC l (some n) = PairResult.containor (l.take (min n.toNat l.length)) ∧
    lastC l (some n) =
      PairResult.containor (l.drop (l.length - min n.toNat l.length)) ∧
    firstC [(k, v)] (some n) = PairResult.pair k v ∧
    lastC [(k, v)] (some n) = PairResult.pair k v := by
  have hminone : ∀ m : Nat, 0 < m → effAmount m none = 1 := by
    intro m hm
    simp only [effAmount]
    omega
  refine ⟨?_, ?_, ?_, ?_, ?_, ?_, ?_, ?_, ?_, ?_⟩
  · rw [firstC, hminone _ (by simp)]
    simp
  · rw [lastC, hminone _ (by simp)]
    have hdrop : (l ++ [(k, v)]).drop ((l ++ [(k, v)]).length - (1 : Int).toNat)
        = [(k, v)] := by
      simp
    simp only [hdrop]
    simp
  · rw [firstC]
    have h0 : effAmount (List.length ([] : List (K × V))) (some n) = 0 := by
      show min ((0 : Nat) : Int) (if n ≤ 0 then 1 else n) = 0
      rw [if_neg (by omega)]
      omega
    rw [h0]
    simp
  · rw [lastC]
    have h0 : effAmount (List.length ([] : List (K × V))) (some n) = 0 := by
      show min ((0 : Nat) : Int) (if n ≤ 0 then 1 else n) = 0
      rw [if_neg (by omega)]
      omega
    rw [h0]
    simp
  · rw [firstC]
    have h0 : effAmount (List.length ([] : List (K × V))) none = 0 := by
      show min ((0 : Nat) : Int) 1 = 0
      omega
    rw [h0]
    simp
  · rw [lastC]
    have h0 : effAmount (List.length ([] : List (K × V))) none = 0 := by
      show min ((0 : Nat) : Int) 1 = 0
      omega
    rw [h0]
    simp
  · rw [firstC]
    have ha : effAmount l.length (some n) = min ((l.length : Nat) : Int) n := by
      show min ((l.length : Nat) : Int) (if n ≤ 0 then 1 else n) = _
      rw [if_neg (by omega)]
    rw [ha]
    rw [if_neg (by omega : ¬ min ((l.length : Nat) : Int) n ≤ 1)]
    have htn : (min ((l.length : Nat) : Int) n).toNat = min n.toNat l.length := by
      omega
    rw [htn, fromEntries_eq_self (nodup_keysOf_take _ hnd)]
  · rw [lastC]
    have ha : effAmount l.length (some n) = min ((l.length : Nat) : Int) n := by
      show min ((l.length : Nat) : Int) (if n ≤ 0 then 1 else n) = _
      rw [if_neg (by omega)]
    rw [ha]
    rw [if_neg (by omega : ¬ min ((l.length : Nat) : Int) n = 0),
      if_neg (by omega : ¬ min ((l.length : Nat) : Int) n ≤ 1)]
    have htn : (min ((l.length : Nat) : Int) n).toNat = min n.toNat l.length := by
      omega
    rw [htn, fromEntries_eq_self (nodup_keysOf_drop _ hnd)]
  · rw [firstC]
    have ha : effAmount [(k, v)].length (some n) = 1 := by
      show min ((1 : Nat) : Int) (if n ≤ 0 then 1 else n) = 1
      rw [if_neg (by omega)]
      omega
    rw [ha]
    simp
  · rw [lastC]
    have ha : effAmount [(k, v)].length (some n) = 1 := by
      show min ((1 : Nat) : Int) (if n ≤ 0 then 1 else n) = 1
      rw [if_neg (by omega)]
      omega
    rw [ha]
    simp

end Containor

namespace Containor

variable {K V : Type} [DecidableEq K]

/-- C5 witness. -/
theorem first_last_contract_witness :
    firstC [((0 : Nat), (1 : Nat)), (1, 2)] (some 3) =
      PairResult.containor [(0, 1), (1, 2)] := by
  have h := (first_last_contract [((0 : Nat), (1 : Nat)), (1, 2)] 5 6 3
    (by decide) (by decide) (by decide)).2.2.2.2.2.2.1
  simpa using h

theorem clampStart_le (size : Nat) (start : Int) :
    clampStart size start ≤ size := by
  unfold clampStart
  dsimp only
  split_ifs <;> omega

theorem clampDelete_le (size s : Nat) (dc : Option Int) :
    clampDelete size s dc ≤ size - s := by
  match dc with
  | none => simp [clampDelete]
  | some d =>
    simp only [clampDelete]
    split_ifs <;> omega

/-- C6 counterexample: splicing in an entry whose key collides with a kept
key makes the rebuilt map collapse the duplicate, so the final length is 2,
not `oldLength - actualDeleted + items.length = 2 - 0 + 1 = 3`. -/
theorem splice_length_counterexample :
    (spliceC [((0 : Nat), (1 : Nat)), (1, 2)] 0 (some 0) [(0, 9)]).2.length
        = 0 ∧
    (spliceC [((0 : Nat), (1 : Nat)), (1, 2)] 0 (some 0) [(0, 9)]).1.length
        = 2 ∧
    (spliceC [((0 : Nat), (1 : Nat)), (1, 2)] 0 (some 0) [(0, 9)]).1.length
      ≠ [((0 : Nat), (1 : Nat)), (1, 2)].length
          - (spliceC [((0 : Nat), (1 : Nat)), (1, 2)] 0 (some 0) [(0, 9)]).2.length
          + [((0 : Nat), (9 : Nat))].length := by
  decide

/-- C6 (amended): `splice` removes the clamped range, inserts the items at
that position, returns the removed entries as a new container, and — when
the inserted keys are distinct and disjoint from the receiver's keys — the
receiver's new length is `oldLength - actualDeleted + items.length` (the
removed entries being a sublist of the original).  With colliding keys the
rebuild collapses duplicates instead. -/
theorem splice_contract (l items : List (K × V)) (start : Int)
    (dc : Option Int) (hnd : (keysOf l).Nodup)
    (hni : (keysOf items).Nodup)
    (hdisj : ∀ a ∈ keysOf items, a ∉ keysOf l) :
    (spliceC l start dc items).1.length + (spliceC l start dc items).2.length
        = l.length + items.length ∧
    List.Sublist (spliceC l start dc items).2 l := by
  have hs := clampStart_le l.length start
  have hn := clampDelete_le l.length (clampStart l.length start) dc
  set s := clampStart l.length start with hsdef
  set n := clampDelete l.length s dc with hndef
  have hremoved_sub : List.Sublist ((l.drop s).take n) l :=
    ((l.drop s).take_sublist n).trans (l.drop_sublist s)
  have hrm_nodup : (keysOf ((l.drop s).take n)).Nodup :=
    hnd.sublist (List.Sublist.map Prod.fst hremoved_sub)
  have hsnd : (spliceC l start dc items).2 = (l.drop s).take n := by
    show fromEntries ((l.drop s).take n) = (l.drop s).take n
    exact fromEntries_eq_self hrm_nodup
  have hkeep_sub : List.Sublist (l.take s ++ l.drop (s + n)) l := by
    have h1 : List.Sublist (l.drop (s + n)) (l.drop s) := by
      have h := (l.drop s).drop_sublist n
      rwa [List.drop_drop] at h
    have h2 := List.Sublist.append_left h1 (l.take s)
    rwa [List.take_append_drop] at h2
  have hrebuilt_nodup :
      (keysOf (l.take s ++ items ++ l.drop (s + n))).Nodup := by
    rw [keysOf_append, keysOf_append]
    have hAC : (keysOf (l.take s) ++ keysOf (l.drop (s + n))).Nodup := by
      have h := hnd.sublist (List.Sublist.map Prod.fst hkeep_sub)
      have he : keysOf (l.take s) ++ keysOf (l.drop (s + n)) =
          List.map Prod.fst (l.take s ++ l.drop (s + n)) := by
        simp [keysOf]
      rw [he]
      exact h
    rw [List.append_assoc]
    rw [List.nodup_append]
    obtain ⟨hA, hC, hACdisj⟩ := List.nodup_append.mp hAC
    refine ⟨hA, ?_, ?_⟩
    · rw [List.nodup_append]
      refine ⟨hni, hC, ?_⟩
      intro a ha hc
      exact hdisj a ha
        ((List.Sublist.map Prod.fst (l.drop_sublist (s + n))).mem hc)
    · intro a ha hbc
      rcases List.mem_append.mp hbc with hb | hc
      · exact hdisj a hb ((List.Sublist.map Prod.fst (l.take_sublist s)).mem ha)
      · exact hACdisj ha hc
  have hfst : (spliceC l start dc items).1 =
      l.take s ++ items ++ l.drop (s + n) := by
    show fromEntries (l.take s ++ items ++ l.drop (s + n)) = _
    exact fromEntries_eq_self hrebuilt_nodup
  constructor
  · rw [hfst, hsnd]
    simp only [List.length_append, List.length_take, List.length_drop]
    omega
  · rw [hsnd]
    exact hremoved_sub

end Containor

namespace Containor

variable {K V : Type} [DecidableEq K]

/-- C6 witness. -/
theorem splice_contract_witness :
    (spliceC [((0 : Nat), (1 : Nat)), (1, 2), (2, 3)] 1 (some 1)
          [(7, 9)]).1.length +
      (spliceC [((0 : Nat), (1 : Nat)), (1, 2), (2, 3)] 1 (some 1)
          [(7, 9)]).2.length = 3 + 1 :=
  (splice_contract [((0 : Nat), (1 : Nat)), (1, 2), (2, 3)] [(7, 9)]
    1 (some 1) (by decide) (by decide) (by decide)).1

/-- C7: `sort` applied twice with the same comparator is idempotent, for
every comparator meeting the ECMAScript "consistent comparator" contract
(the induced entry ordering `sortRel` is total and transitive — for an
inconsistent comparator ECMAScript leaves the sort order
implementation-defined, so the program guarantees nothing). -/
theorem sort_idempotent (cmp : V → V → K → K → Int) (l : List (K × V))
    (hnd : (keysOf l).Nodup)
    (htot : ∀ a b : K × V, sortRel cmp a b ∨ sortRel cmp b a)
    (htrans : ∀ a b c : K × V,
      sortRel cmp a b → sortRel cmp b c → sortRel cmp a c) :
    sortC cmp (sortC cmp l) = sortC cmp l := by
  letI : IsTotal (K × V) (sortRel cmp) := ⟨htot⟩
  letI : IsTrans (K × V) (sortRel cmp) := ⟨fun a b c => htrans a b c⟩
  have hsorted : List.Sorted (sortRel cmp)
      (List.insertionSort (sortRel cmp) l) :=
    List.sorted_insertionSort (sortRel cmp) l
  have hperm : (List.insertionSort (sortRel cmp) l).Perm l :=
    List.perm_insertionSort (sortRel cmp) l
  have hnd' : (keysOf (List.insertionSort (sortRel cmp) l)).Nodup :=
    ((hperm.map Prod.fst).nodup_iff).mpr hnd
  have e1 : sortC cmp l = List.insertionSort (sortRel cmp) l := by
    rw [sortC]
    exact fromEntries_eq_self hnd'
  rw [e1, sortC, hsorted.insertionSort_eq]
  exact fromEntries_eq_self hnd'

/-- C7 witness: a concrete consistent comparator (compare by value). -/
theorem sort_idempotent_witness :
    sortC (fun a b _ _ => (a : Int) - (b : Int))
        (sortC (fun a b _ _ => (a : Int) - (b : Int))
          [((0 : Nat), (5 : Nat)), (1, 3)]) =
      sortC (fun a b _ _ => (a : Int) - (b : Int))
        [((0 : Nat), (5 : Nat)), (1, 3)] := by
  exact sort_idempotent (fun a b _ _ => (a : Int) - (b : Int))
    [((0 : Nat), (5 : Nat)), (1, 3)] (by decide)
    (fun a b => by simp only [sortRel]; omega)
    (fun a b c => by simp only [sortRel]; omega)

end Containor

namespace ContainorArray

theorem mem_dedupFirst {T : Type} [DecidableEq T] :
    ∀ (xs seen : List T) (a : T),
      a ∈ dedupFirst xs seen ↔ a ∈ xs ∧ a ∉ seen
  | [], seen, a => by simp [dedupFirst]
  | x :: rest, seen, a => by
    by_cases hx : x ∈ seen
    · rw [dedupFirst, if_pos hx, mem_dedupFirst rest seen a]
      constructor
      · rintro ⟨h1, h2⟩
        exact ⟨List.mem_cons_of_mem _ h1, h2⟩
      · rintro ⟨h1, h2⟩
        rcases List.mem_cons.mp h1 with rfl | h1
        · exact absurd hx h2
        · exact ⟨h1, h2⟩
    · rw [dedupFirst, if_neg hx]
      by_cases hax : a = x
      · subst hax
        simp [hx]
      · rw [List.mem_cons, or_iff_right hax, mem_dedupFirst rest (x :: seen) a]
        simp [List.mem_cons, hax]

/-- C8: `deleteAt` raises `IndexOutOfRangeError` exactly when some given
index lies outside `[0, length)` — the check happens before any mutation,
so on error no new sequence state is produced — and on success exactly the
elements at the given positions are removed; the result depends only on the
*set* of indices (membership in `removeArr`), so duplicate indices
collapse. -/
theorem deleteAt_contract (l : List Nat) (removeArr : List Int) :
    ((∃ i ∈ removeArr, i < 0 ∨ (l.length : Int) ≤ i) →
      ∃ bad, deleteAt l removeArr = Except.error bad) ∧
    ((∀ i ∈ removeArr, 0 ≤ i ∧ i < (l.length : Int)) →
      deleteAt l removeArr =
        Except.ok ((l.enum.filter
          (fun pr => !decide ((pr.1 : Int) ∈ removeArr))).map Prod.snd)) := by
  constructor
  · rintro ⟨i, hi, hout⟩
    have hne : removeArr.isEmpty = false := by
      cases removeArr with
      | nil => exact absurd hi (List.not_mem_nil i)
      | cons a as => rfl
    rw [deleteAt, if_neg (by simp [hne])]
    dsimp only
    have himem : i ∈ dedupFirst removeArr [] :=
      (mem_dedupFirst removeArr [] i).mpr ⟨hi, List.not_mem_nil i⟩
    cases hfind : (dedupFirst removeArr []).find?
        (fun i => decide (i < 0) || decide ((l.length : Int) ≤ i)) with
    | none =>
      have := List.find?_eq_none.mp hfind i himem
      simp only [Bool.or_eq_true, decide_eq_true_eq] at this
      rcases hout with h | h
      · exact absurd (Or.inl h) this
      · exact absurd (Or.inr h) this
    | some bad => exact ⟨bad, rfl⟩
  · intro hall
    cases hre : removeArr with
    | nil =>
      subst hre
      have h1 : deleteAt l ([] : List Int) = Except.ok l := rfl
      rw [h1]
      have hfe : ∀ pr ∈ l.enum,
          (fun pr : Nat × Nat => !decide ((pr.1 : Int) ∈ ([] : List Int))) pr
            = true := by
        intro pr _
        simp
      rw [List.filter_eq_self.mpr hfe, List.enum_map_snd]
    | cons a as =>
      rw [← hre]
      have hne : removeArr.isEmpty = false := by rw [hre]; rfl
      rw [deleteAt, if_neg (by simp [hne])]
      dsimp only
      have hfind : (dedupFirst removeArr []).find?
          (fun i => decide (i < 0) || decide ((l.length : Int) ≤ i)) = none := by
        apply List.find?_eq_none.mpr
        intro i hi
        have hmem : i ∈ removeArr :=
          ((mem_dedupFirst removeArr [] i).mp hi).1
        have := hall i hmem
        simp only [Bool.or_eq_true, decide_eq_true_eq]
        omega
      rw [hfind]
      dsimp only
      congr 1
      apply congrArg
      apply List.filter_congr
      intro pr _
      have : ((pr.1 : Int) ∈ dedupFirst removeArr []) ↔
          ((pr.1 : Int) ∈ removeArr) := by
        rw [mem_dedupFirst]
        simp
      by_cases hmem : (pr.1 : Int) ∈ removeArr
      · simp [hmem, this.mpr hmem]
      · have hmem' : (pr.1 : Int) ∉ dedupFirst removeArr [] := fun h =>
          hmem (this.mp h)
        simp [hmem, hmem']

/-- C8 witness: duplicate in-range indices collapse into one removal. -/
theorem deleteAt_contract_witness :
    deleteAt [10, 20] [(0 : Int), 0] = Except.ok [20] := by
  have h := (deleteAt_contract [10, 20] [(0 : Int), 0]).2 (by decide)
  rw [h]
  rfl

end ContainorArray

namespace Containor

variable {K V : Type} [DecidableEq K]

theorem foldl_filter_step (p : V → K → Bool) :
    ∀ (l acc : List (K × V)),
      l.foldl (fun acc e => if p e.2 e.1 then mapSet acc e.1 e.2 else acc)
          acc =
        (l.filter (fun e => p e.2 e.1)).foldl
          (fun acc e => mapSet acc e.1 e.2) acc
  | [], _ => rfl
  | e :: rest, acc => by
    by_cases h : p e.2 e.1
    · simp only [List.foldl_cons, List.filter_cons, h, if_pos]
      exact foldl_filter_step p rest (mapSet acc e.1 e.2)
    · simp only [List.foldl_cons, List.filter_cons, h, if_neg,
        Bool.false_eq_true]
      exact foldl_filter_step p rest acc

theorem foldl_partition_step (p : V → K → Bool) :
    ∀ (l : List (K × V)) (a b : List (K × V)),
      l.foldl
          (fun acc e =>
            if p e.2 e.1 then (mapSet acc.1 e.1 e.2, acc.2)
            else (acc.1, mapSet acc.2 e.1 e.2))
          (a, b) =
        ((l.filter (fun e => p e.2 e.1)).foldl
            (fun acc e => mapSet acc e.1 e.2) a,
          (l.filter (fun e => !p e.2 e.1)).foldl
            (fun acc e => mapSet acc e.1 e.2) b)
  | [], _, _ => rfl
  | e :: rest, a, b => by
    by_cases h : p e.2 e.1
    · simp only [List.foldl_cons, List.filter_cons, h, if_pos,
        Bool.not_true, Bool.false_eq_true, if_neg]
      exact foldl_partition_step p rest (mapSet a e.1 e.2) b
    · simp only [List.foldl_cons, List.filter_cons, h, Bool.false_eq_true,
        if_neg, Bool.not_false, if_pos]
      exact foldl_partition_step p rest a (mapSet b e.1 e.2)

theorem jsSlice_sublist {T : Type} (l : List T) (start : Int)
    (stop? : Option Int) : List.Sublist (jsSlice l start stop?) l := by
  rw [jsSlice]
  exact (List.drop_sublist _ _).trans (List.take_sublist _ _)

/-- C10: `filter`, `partition` and `slice` never modify the receiver — the
post-call receiver state (first component) is the input state — and the
results are new containers: the insertion-order filtered entries, the
matching/non-matching partition, and the sliced entry range. -/
theorem filter_partition_slice_frame (p : V → K → Bool) (l : List (K × V))
    (start : Int) (stop? : Option Int) (hnd : (keysOf l).Nodup) :
    (filterC p l).1 = l ∧
    (partitionC p l).1 = l ∧
    (sliceC l start stop?).1 = l ∧
    (filterC p l).2 = l.filter (fun e => p e.2 e.1) ∧
    (partitionC p l).2 =
      (l.filter (fun e => p e.2 e.1), l.filter (fun e => !p e.2 e.1)) ∧
    (sliceC l start stop?).2 = jsSlice l start stop? := by
  refine ⟨rfl, rfl, rfl, ?_, ?_, ?_⟩
  · show l.foldl _ [] = _
    rw [foldl_filter_step]
    exact fromEntries_eq_self (nodup_keysOf_filter _ hnd)
  · show l.foldl _ ([], []) = _
    rw [foldl_partition_step]
    refine Prod.ext ?_ ?_ <;>
      exact fromEntries_eq_self (nodup_keysOf_filter _ hnd)
  · show fromEntries (jsSlice l start stop?) = _
    exact fromEntries_eq_self
      (hnd.sublist (List.Sublist.map Prod.fst (jsSlice_sublist l start stop?)))

/-- C10 witness. -/
theorem filter_partition_slice_frame_witness :
    (filterC (fun v _ => decide (v = 2)) [((0 : Nat), (1 : Nat)), (1, 2)]).1 =
        [((0 : Nat), (1 : Nat)), (1, 2)] ∧
    (filterC (fun v _ => decide (v = 2)) [((0 : Nat), (1 : Nat)), (1, 2)]).2 =
        [(1, 2)] := by
  have h := filter_partition_slice_frame (fun v _ => decide (v = 2))
    [((0 : Nat), (1 : Nat)), (1, 2)] 0 none (by decide)
  refine ⟨h.1, ?_⟩
  rw [h.2.2.2.1]
  rfl

end Containor
